import Mathlib

set_option autoImplicit false

/-!
Shallow embedding of the `deque` Go package (src/pkg/deque.go, src/pkg/errors.go):
a generic double-ended queue backed by a doubly linked list with optional bounded
capacity.  Go heap pointers are modelled as indices into an explicit allocation
list (`Deque.heap`); the nil pointer is `none`.  Dereferencing a nil pointer is a
Go runtime panic, modelled by operations returning `none`.  Go `int` is modelled
by `Int` (no operation here approaches 64-bit overflow).  The mutex only
serialises calls and has no sequential semantics, so it is not modelled.
-/

/-- Embedding of `node[T]` from deque.go: one element value plus the `next` and
`prev` pointers, each either an address into the heap or nil (`none`). -/
structure Node (T : Type) where
  value : T
  next : Option Nat
  prev : Option Nat
deriving DecidableEq

/-- Embedding of `Deque[T]` from deque.go: `head`, `tail`, `len`, `capacity`
exactly as in the Go struct, plus the explicit allocation heap that models the
Go runtime heap holding the nodes. -/
structure Deque (T : Type) where
  head : Option Nat
  tail : Option Nat
  len : Int
  capacity : Int
  heap : List (Node T)
deriving DecidableEq

namespace Deque

variable {T : Type}

/-- Embedding of `NewDeque`: an empty deque with the given capacity. -/
def NewDeque (capacity : Int) : Deque T := ⟨none, none, 0, capacity, []⟩

/-- Embedding of `GetLen`. -/
def GetLen (d : Deque T) : Int := d.len

/-- Embedding of `IsEmpty`. -/
def IsEmpty (d : Deque T) : Bool := d.GetLen == 0

/-- Embedding of `GetCapacity`. -/
def GetCapacity (d : Deque T) : Int := d.capacity

/-- Embedding of `IsUnlimited`. -/
def IsUnlimited (d : Deque T) : Bool := d.GetCapacity < 0

/-- Embedding of `IsFull`. -/
def IsFull (d : Deque T) : Bool := !d.IsUnlimited && d.GetLen ≥ d.GetCapacity

/-- Embedding of `isOverflowing`. -/
def isOverflowing (d : Deque T) : Bool := !d.IsUnlimited && d.GetLen > d.GetCapacity

/-- Dereference a pointer: `none` (nil pointer or bad address) is a panic. -/
def readNode (d : Deque T) : Option Nat → Option (Node T)
  | none => none
  | some a => d.heap[a]?

/-- Assignment `p.next = q` through pointer `p`; panics (`none`) if `p` is nil. -/
def writeNextP (d : Deque T) (p q : Option Nat) : Option (Deque T) :=
  match p with
  | none => none
  | some a =>
    match d.heap[a]? with
    | none => none
    | some n => some { d with heap := d.heap.set a { n with next := q } }

/-- Assignment `p.prev = q` through pointer `p`; panics (`none`) if `p` is nil. -/
def writePrevP (d : Deque T) (p q : Option Nat) : Option (Deque T) :=
  match p with
  | none => none
  | some a =>
    match d.heap[a]? with
    | none => none
    | some n => some { d with heap := d.heap.set a { n with prev := q } }

/-- Embedding of the unexported `tryPopLeft` (deque.go lines 225-242).  The
result is `(returned value, whether a PopError was returned, new state)`;
note the Go code never assigns the popped element to `value`, so the returned
value is always the zero value `default`. -/
def tryPopLeft [Inhabited T] (d : Deque T) : Option (T × Bool × Deque T) :=
  if d.GetLen = 0 then
    some (default, true, d)
  else if d.GetLen = 1 then
    some (default, false, { d with head := none, tail := none, len := d.len - 1 })
  else
    match readNode d d.head with
    | none => none
    | some hn =>
      match writePrevP d hn.next none with
      | none => none
      | some d1 =>
        some (default, false, { d1 with head := hn.next, len := d1.len - 1 })

/-- Embedding of the unexported `tryPop` (deque.go lines 192-213), statement by
statement: `newTail := oldTail.prev; newTail.next = nil; oldTail.next = nil;
oldTail.prev = nil; self.tail.prev = nil; self.tail = newTail; self.len--`.
As with `tryPopLeft`, the Go code never assigns the popped element, so the
returned value is always `default`. -/
def tryPop [Inhabited T] (d : Deque T) : Option (T × Bool × Deque T) :=
  if d.GetLen = 0 then
    some (default, true, d)
  else if d.GetLen = 1 then
    some (default, false, { d with head := none, tail := none, len := d.len - 1 })
  else
    let oldTail := d.tail
    match readNode d oldTail with
    | none => none
    | some tn =>
      let newTail := tn.prev
      match writeNextP d newTail none with
      | none => none
      | some d1 =>
        match writeNextP d1 oldTail none with
        | none => none
        | some d2 =>
          match writePrevP d2 oldTail none with
          | none => none
          | some d3 =>
            match writePrevP d3 d3.tail none with
            | none => none
            | some d4 =>
              some (default, false, { d4 with tail := newTail, len := d4.len - 1 })

/-- The closing statements of `append`: with the length already incremented,
evict one element from the left (`tryPopLeft`, discarding its results) if the
deque is overflowing. -/
def evictLeft [Inhabited T] (d4 : Deque T) : Option (Deque T) :=
  if d4.isOverflowing then
    match tryPopLeft d4 with
    | none => none
    | some (_, _, d5) => some d5
  else
    some d4

/-- The closing statements of `appendLeft`: evict one element from the right
(`tryPop`) if the deque is overflowing. -/
def evictRight [Inhabited T] (d4 : Deque T) : Option (Deque T) :=
  if d4.isOverflowing then
    match tryPop d4 with
    | none => none
    | some (_, _, d5) => some d5
  else
    some d4

/-- Embedding of the unexported `append` (deque.go lines 127-150): allocate a
fresh node, link it by the three-way switch on the length, increment the
length, then evict from the left if overflowing. -/
def append [Inhabited T] (d : Deque T) (value : T) : Option (Deque T) :=
  let a := d.heap.length
  let d0 : Deque T := { d with heap := d.heap ++ [⟨value, none, none⟩] }
  let afterLink : Option (Deque T) :=
    if d0.GetLen = 0 then
      some { d0 with head := some a, tail := some a }
    else if d0.GetLen = 1 then
      match writePrevP d0 (some a) d0.head with
      | none => none
      | some d1 =>
        match writeNextP d1 d1.head (some a) with
        | none => none
        | some d2 => some { d2 with tail := some a }
    else
      match writePrevP d0 (some a) d0.tail with
      | none => none
      | some d1 =>
        match writeNextP d1 d1.tail (some a) with
        | none => none
        | some d2 => some { d2 with tail := some a }
  match afterLink with
  | none => none
  | some d3 => evictLeft { d3 with len := d3.len + 1 }

/-- Embedding of the unexported `appendLeft` (deque.go lines 162-180). -/
def appendLeft [Inhabited T] (d : Deque T) (value : T) : Option (Deque T) :=
  let a := d.heap.length
  let d0 : Deque T := { d with heap := d.heap ++ [⟨value, none, none⟩] }
  let afterLink : Option (Deque T) :=
    if d0.GetLen = 0 then
      some { d0 with head := some a, tail := some a }
    else
      match writeNextP d0 (some a) d0.head with
      | none => none
      | some d1 =>
        match writePrevP d1 d1.head (some a) with
        | none => none
        | some d2 => some { d2 with head := some a }
  match afterLink with
  | none => none
  | some d3 => evictRight { d3 with len := d3.len + 1 }

/-- Embedding of the exported `Append` (mutex wrapper around `append`). -/
def Append [Inhabited T] (d : Deque T) (value : T) : Option (Deque T) := d.append value

/-- Embedding of the exported `AppendLeft`. -/
def AppendLeft [Inhabited T] (d : Deque T) (value : T) : Option (Deque T) := d.appendLeft value

/-- Embedding of the exported `TryPop`. -/
def TryPop [Inhabited T] (d : Deque T) : Option (T × Bool × Deque T) := d.tryPop

/-- Embedding of the exported `TryPopLeft`. -/
def TryPopLeft [Inhabited T] (d : Deque T) : Option (T × Bool × Deque T) := d.tryPopLeft

/-- Embedding of `Clear`: reset head, tail and length (allocated nodes simply
become unreachable, as in Go). -/
def Clear (d : Deque T) : Deque T := { d with head := none, tail := none, len := 0 }

/-- Embedding of the unexported `rotateRight` (deque.go lines 319-326),
statement by statement: `tail := self.tail; tail.next = self.head;
self.tail = tail.prev; self.tail.next = nil; tail.prev = nil; self.head = tail`. -/
def rotateRight (d : Deque T) : Option (Deque T) :=
  let t := d.tail
  match writeNextP d t d.head with
  | none => none
  | some d1 =>
    match readNode d1 t with
    | none => none
    | some tn =>
      let d2 : Deque T := { d1 with tail := tn.prev }
      match writeNextP d2 d2.tail none with
      | none => none
      | some d3 =>
        match writePrevP d3 t none with
        | none => none
        | some d4 => some { d4 with head := t }

/-- Embedding of the unexported `rotateLeft` (deque.go lines 329-336),
statement by statement: `head := self.head; self.head = head.next;
head.next = nil; tail := self.tail; tail.next = head; self.tail = head`. -/
def rotateLeft (d : Deque T) : Option (Deque T) :=
  let h := d.head
  match readNode d h with
  | none => none
  | some hn =>
    let d1 : Deque T := { d with head := hn.next }
    match writeNextP d1 h none with
    | none => none
    | some d2 =>
      let t := d2.tail
      match writeNextP d2 t h with
      | none => none
      | some d3 => some { d3 with tail := h }

/-- Runs `k` iterations of a single-step rotation, propagating panics. -/
def rotIter (f : Deque T → Option (Deque T)) : Nat → Deque T → Option (Deque T)
  | 0, d => some d
  | k + 1, d =>
    match f d with
    | none => none
    | some d2 => rotIter f k d2

/-- Embedding of the exported `Rotate` (deque.go lines 340-361): no-op when
`len < 2`, otherwise `|n|` iterations of `rotateRight` (for `n ≥ 0`) or
`rotateLeft` (for `n < 0`). -/
def Rotate (d : Deque T) (n : Int) : Option (Deque T) :=
  if d.GetLen < 2 then
    some d
  else if 0 ≤ n then
    rotIter rotateRight n.toNat d
  else
    rotIter rotateLeft (-n).toNat d

/-- Walks `k` steps through `next` pointers, as the forward loop of `TryPeek`
does; each step dereferences the current pointer (panic when nil). -/
def walkNextK (d : Deque T) : Option Nat → Nat → Option (Option Nat)
  | p, 0 => some p
  | p, k + 1 =>
    match readNode d p with
    | none => none
    | some n => walkNextK d n.next k

/-- Walks `k` steps through `prev` pointers, as the backward loop of `TryPeek`
does. -/
def walkPrevK (d : Deque T) : Option Nat → Nat → Option (Option Nat)
  | p, 0 => some p
  | p, k + 1 =>
    match readNode d p with
    | none => none
    | some n => walkPrevK d n.prev k

/-- Embedding of the exported `TryPeek` (deque.go lines 280-307).  The result
is `(returned value, index carried by the PeekError if one was returned)`;
`none` is a runtime panic (nil dereference inside a walk). -/
def TryPeek [Inhabited T] (d : Deque T) (index : Int) : Option (T × Option Int) :=
  if index < 0 ∨ d.GetLen ≤ index then
    some (default, some index)
  else if index < d.GetLen / 2 then
    match walkNextK d d.head index.toNat with
    | none => none
    | some p =>
      match readNode d p with
      | none => none
      | some n => some (n.value, none)
  else
    match walkPrevK d d.tail (d.GetLen - 1 - index).toNat with
    | none => none
    | some p =>
      match readNode d p with
      | none => none
      | some n => some (n.value, none)

/-- Forward traversal collecting element values, as `Values` (deque.go lines
86-97) yields them.  The Go loop runs until the pointer is nil; on the states
considered here the chain from `head` is finite and never longer than the heap,
so `heap.length` fuel is enough to reach the terminating nil. -/
def valuesAux (h : List (Node T)) : Option Nat → Nat → List T
  | none, _ => []
  | some _, 0 => []
  | some a, fuel + 1 =>
    match h[a]? with
    | none => []
    | some n => n.value :: valuesAux h n.next fuel

/-- Embedding of `Values`: the element sequence from head to tail. -/
def Values (d : Deque T) : List T := valuesAux d.heap d.head d.heap.length

/-- Appends every element of a list in order, as the loops of
`NewDequeFromSeq` and `Copy` do. -/
def appendAll [Inhabited T] (d : Deque T) : List T → Option (Deque T)
  | [] => some d
  | v :: rest =>
    match d.append v with
    | none => none
    | some d2 => appendAll d2 rest

/-- Embedding of `Copy` (deque.go lines 113-124): a fresh deque with the same
capacity, filled by appending each value yielded by `Values`. -/
def Copy [Inhabited T] (d : Deque T) : Option (Deque T) :=
  appendAll (NewDeque d.capacity) d.Values

/-- One public mutating operation, for stating reachability. -/
inductive DOp (T : Type) where
  | app (v : T)
  | appL (v : T)
  | pop
  | popL
  | clear
  | rot (n : Int)

/-- Applies one public operation to a state (pop results are discarded, only
the state evolution matters for reachability). -/
def applyOp [Inhabited T] (d : Deque T) : DOp T → Option (Deque T)
  | .app v => d.append v
  | .appL v => d.appendLeft v
  | .pop =>
    match d.tryPop with
    | none => none
    | some (_, _, d2) => some d2
  | .popL =>
    match d.tryPopLeft with
    | none => none
    | some (_, _, d2) => some d2
  | .clear => some d.Clear
  | .rot n => d.Rotate n

/-- Runs a sequence of public operations from a state. -/
def run [Inhabited T] (d : Deque T) : List (DOp T) → Option (Deque T)
  | [] => some d
  | o :: ops =>
    match applyOp d o with
    | none => none
    | some d2 => run d2 ops

/-- Tests whether an operation is one of the two insertions. -/
def isIns : DOp T → Bool
  | .app _ => true
  | .appL _ => true
  | _ => false

/-- Collects up to `fuel` node addresses following the given link field,
used to compare the forward and backward chains. -/
def walkAddrs (h : List (Node T)) (follow : Node T → Option Nat) :
    Option Nat → Nat → List Nat
  | none, _ => []
  | some _, 0 => []
  | some a, fuel + 1 =>
    match h[a]? with
    | none => []
    | some n => a :: walkAddrs h follow (follow n) fuel

/-- Decidable check of the structural invariant stated by the spec for
`length ≥ 2`: `head.prev` absent, `tail.next` absent, following `next` from
`head` exactly `length` times reaches absence, and the `prev` chain from
`tail` traverses the same nodes in reverse. -/
def structOk (d : Deque T) : Bool :=
  if d.GetLen < 2 then true
  else
    (walkNextK d d.head d.GetLen.toNat == some none) &&
    (walkPrevK d d.tail d.GetLen.toNat == some none) &&
    (match readNode d d.head with
     | some n => n.prev == none
     | none => false) &&
    (match readNode d d.tail with
     | some n => n.next == none
     | none => false) &&
    (walkAddrs d.heap Node.prev d.tail d.GetLen.toNat ==
      (walkAddrs d.heap Node.next d.head d.GetLen.toNat).reverse)

/-- The heap `h` holds, starting at the head of `addrs`, a well formed doubly
linked chain through exactly the addresses `addrs` carrying the values `vs`,
where the first node's `prev` is `p`: each node's `next` points to the
following address (nil at the end) and each node's `prev` to the preceding
one. -/
inductive ChainIs (h : List (Node T)) : Option Nat → List Nat → List T → Prop
  | nil (p : Option Nat) : ChainIs h p [] []
  | cons {p : Option Nat} {a : Nat} {rest : List Nat} {v : T} {vrest : List T} :
      h[a]? = some ⟨v, rest.head?, p⟩ →
      ChainIs h (some a) rest vrest →
      ChainIs h p (a :: rest) (v :: vrest)

/-- Executable version of `ChainIs`, for evaluating concrete states. -/
def chainCheck [DecidableEq T] (h : List (Node T)) : Option Nat → List Nat → List T → Bool
  | _, [], [] => true
  | p, a :: rest, v :: vrest =>
    (h[a]? == some ⟨v, rest.head?, p⟩) && chainCheck h (some a) rest vrest
  | _, _, _ => false

/-- Abstraction relation: the deque state `d` represents the value sequence
`vs`, its nodes being laid out at the distinct addresses `addrs` in head to
tail order. -/
def Models (d : Deque T) (addrs : List Nat) (vs : List T) : Prop :=
  d.head = addrs.head? ∧ d.tail = addrs.getLast? ∧ d.len = (addrs.length : Int) ∧
    addrs.Nodup ∧ ChainIs d.heap none addrs vs

end Deque

namespace Deque

variable {T : Type}

theorem mem_of_getLast?_some {α : Type} {l : List α} {a : α} (h : l.getLast? = some a) :
    a ∈ l := by
  obtain ⟨hne, rfl⟩ := List.mem_getLast?_eq_getLast (Option.mem_def.mpr h)
  exact List.getLast_mem hne

theorem ChainIs.mem_lt {h : List (Node T)} {p : Option Nat} {addrs : List Nat} {vs : List T}
    (hc : ChainIs h p addrs vs) : ∀ a ∈ addrs, a < h.length := by
  induction hc with
  | nil => simp
  | cons hget _ ih =>
    intro b hb
    rcases List.mem_cons.mp hb with rfl | hb
    · by_contra hlt
      rw [List.getElem?_eq_none (by omega)] at hget
      cases hget
    · exact ih b hb

theorem ChainIs.length_eq {h : List (Node T)} {p : Option Nat} {addrs : List Nat} {vs : List T}
    (hc : ChainIs h p addrs vs) : vs.length = addrs.length := by
  induction hc with
  | nil => rfl
  | cons _ _ ih => simpa using ih

theorem ChainIs.congr {h h2 : List (Node T)} {p : Option Nat} {addrs : List Nat} {vs : List T}
    (hc : ChainIs h p addrs vs) (hagree : ∀ a ∈ addrs, h2[a]? = h[a]?) :
    ChainIs h2 p addrs vs := by
  induction hc with
  | nil => exact ChainIs.nil _
  | cons hget _ ih =>
    exact ChainIs.cons
      ((hagree _ (List.mem_cons_self _ _)).trans hget)
      (ih fun a ha => hagree a (List.mem_cons_of_mem _ ha))

theorem ChainIs.heap_append {h hs : List (Node T)} {p : Option Nat} {addrs : List Nat}
    {vs : List T} (hc : ChainIs h p addrs vs) : ChainIs (h ++ hs) p addrs vs :=
  hc.congr fun a ha => by rw [List.getElem?_append, if_pos (hc.mem_lt a ha)]

theorem nodup_length_le {l : List Nat} {n : Nat} (hnd : l.Nodup) (hlt : ∀ a ∈ l, a < n) :
    l.length ≤ n := by
  have hsub : l.toFinset ⊆ Finset.range n := by
    intro a ha
    exact Finset.mem_range.mpr (hlt a (List.mem_toFinset.mp ha))
  have := Finset.card_le_card hsub
  rwa [List.toFinset_card_of_nodup hnd, Finset.card_range] at this

theorem valuesAux_of_chain {h : List (Node T)} {p : Option Nat} {addrs : List Nat}
    {vs : List T} (hc : ChainIs h p addrs vs) :
    ∀ fuel, addrs.length ≤ fuel → valuesAux h addrs.head? fuel = vs := by
  induction hc with
  | nil => intro fuel _; simp [valuesAux]
  | cons hget _ ih =>
    intro fuel hfuel
    match fuel, hfuel with
    | f + 1, hf =>
      simp only [List.head?_cons, valuesAux, hget]
      rw [ih f (by simp only [List.length_cons] at hf; omega)]

theorem Values_of_models {d : Deque T} {addrs : List Nat} {vs : List T}
    (hm : Models d addrs vs) : d.Values = vs := by
  obtain ⟨hhead, htail, hlen, hnd, hc⟩ := hm
  rw [Values, hhead]
  exact valuesAux_of_chain hc _ (nodup_length_le hnd hc.mem_lt)

end Deque

namespace Deque

variable {T : Type}

theorem chainIs_snoc {h h2 : List (Node T)} :
    ∀ (addrs : List Nat) (vs : List T) (p : Option Nat) (t A : Nat) (v : T),
      ChainIs h p addrs vs → addrs.Nodup → addrs.getLast? = some t → A ∉ addrs →
      (∀ a ∈ addrs, a ≠ t → h2[a]? = h[a]?) →
      (∀ n : Node T, h[t]? = some n → h2[t]? = some { n with next := some A }) →
      h2[A]? = some ⟨v, none, some t⟩ →
      ChainIs h2 p (addrs ++ [A]) (vs ++ [v]) := by
  intro addrs
  induction addrs with
  | nil =>
    intro vs p t A v _ _ ht
    simp at ht
  | cons a rest ih =>
    intro vs p t A v hc hnd ht hA hagree hlast hAnode
    cases hc with
    | cons hget hrest =>
      cases rest with
      | nil =>
        cases hrest
        have hta : t = a := by simpa using ht.symm
        subst hta
        refine ChainIs.cons ?_ (ChainIs.cons ?_ (ChainIs.nil _))
        · simpa using hlast _ hget
        · simpa using hAnode
      | cons b rest2 =>
        rw [List.getLast?_cons_cons] at ht
        have htmem : t ∈ b :: rest2 := mem_of_getLast?_some ht
        have hnd2 := List.nodup_cons.mp hnd
        have hat : a ≠ t := fun he => hnd2.1 (he ▸ htmem)
        refine ChainIs.cons ?_ ?_
        · exact (hagree a (List.mem_cons_self _ _) hat).trans hget
        · exact ih _ _ t A v hrest hnd2.2 ht
            (fun hm => hA (List.mem_cons_of_mem _ hm))
            (fun x hx hxt => hagree x (List.mem_cons_of_mem _ hx) hxt)
            hlast hAnode

theorem chainIs_set_prev_none {h : List (Node T)} {b : Nat} {rest : List Nat} {vs : List T}
    {p : Option Nat} {n : Node T} (hc : ChainIs h p (b :: rest) vs)
    (hnd : (b :: rest).Nodup) (hn : h[b]? = some n) :
    ChainIs (h.set b { n with prev := none }) none (b :: rest) vs := by
  have hb : b < h.length := by
    by_contra hb
    rw [List.getElem?_eq_none (by omega)] at hn
    cases hn
  cases hc with
  | cons hget hrest =>
    rw [hn] at hget
    injection hget with hget
    subst hget
    refine ChainIs.cons ?_ (hrest.congr ?_)
    · rw [List.getElem?_set_eq_of_lt _ hb]
    · intro x hx
      exact List.getElem?_set_ne (fun he => (List.nodup_cons.mp hnd).1 (by rw [he]; exact hx))

theorem tryPopLeft_models [Inhabited T] {d : Deque T} {a : Nat} {addrs : List Nat} {v : T}
    {vs : List T} (hm : Models d (a :: addrs) (v :: vs)) :
    ∃ d2, tryPopLeft d = some (default, false, d2) ∧ Models d2 addrs vs ∧
      d2.capacity = d.capacity ∧ d2.heap.length = d.heap.length := by
  obtain ⟨hhead, htail, hlen, hnd, hc⟩ := hm
  cases hc with
  | cons hget hrest =>
    cases addrs with
    | nil =>
      cases hrest
      refine ⟨{ d with head := none, tail := none, len := d.len - 1 }, ?_, ?_, rfl, rfl⟩
      · simp [tryPopLeft, GetLen, hlen]
      · exact ⟨rfl, rfl, by simp [hlen], List.nodup_nil, ChainIs.nil _⟩
    | cons b rest =>
      have h0 : ¬ d.GetLen = 0 := by
        simp only [GetLen, hlen, List.length_cons]
        push_cast
        omega
      have h1 : ¬ d.GetLen = 1 := by
        simp only [GetLen, hlen, List.length_cons]
        push_cast
        omega
      cases hrest with
      | cons hgetb hrest2 =>
        rename_i v1 vrest1
        have e1 : readNode d d.head = some ⟨v, some b, none⟩ := by
          rw [hhead]
          simpa [readNode] using hget
        have e2 : writePrevP d (some b) none =
            some { d with heap := d.heap.set b ⟨v1, rest.head?, none⟩ } := by
          simp [writePrevP, hgetb]
        refine ⟨⟨some b, d.tail, d.len - 1, d.capacity,
            d.heap.set b ⟨v1, rest.head?, none⟩⟩, ?_, ?_, rfl, by simp⟩
        · simp only [tryPopLeft, if_neg h0, if_neg h1, e1, e2]
        · refine ⟨rfl, ?_, ?_, (List.nodup_cons.mp hnd).2, ?_⟩
          · rw [← List.getLast?_cons_cons (a := a)]
            exact htail
          · simp only [hlen, List.length_cons]
            push_cast
            omega
          · exact chainIs_set_prev_none (ChainIs.cons hgetb hrest2)
              (List.nodup_cons.mp hnd).2 hgetb

end Deque

namespace Deque

variable {T : Type}

theorem chainIs_last {h : List (Node T)} :
    ∀ (addrs : List Nat) (vs : List T) (p : Option Nat) (t : Nat),
      ChainIs h p addrs vs → addrs.getLast? = some t →
      ∃ w q, h[t]? = some ⟨w, none, q⟩ := by
  intro addrs
  induction addrs with
  | nil =>
    intro vs p t _ ht
    simp at ht
  | cons a rest ih =>
    intro vs p t hc ht
    cases hc with
    | cons hget hrest =>
      cases rest with
      | nil =>
        have hta : t = a := by simpa using ht.symm
        subst hta
        exact ⟨_, _, hget⟩
      | cons b rest2 =>
        rw [List.getLast?_cons_cons] at ht
        exact ih _ _ t hrest ht

theorem evictLeft_models [Inhabited T] {d4 : Deque T} {x : Nat} {xs : List Nat} {w : T}
    {ws : List T} (hm : Models d4 (x :: xs) (w :: ws)) :
    ∃ d5, evictLeft d4 = some d5 ∧ d5.capacity = d4.capacity ∧
      (d4.isOverflowing = true → Models d5 xs ws) ∧
      (d4.isOverflowing = false → Models d5 (x :: xs) (w :: ws)) := by
  by_cases hov : d4.isOverflowing = true
  · obtain ⟨d5, he, hm5, hcap, _⟩ := tryPopLeft_models hm
    refine ⟨d5, by simp [evictLeft, hov, he], hcap, fun _ => hm5, fun hc => ?_⟩
    rw [hov] at hc
    cases hc
  · refine ⟨d4, by simp [evictLeft, hov], rfl, fun hc => absurd hc hov, fun _ => hm⟩

end Deque

namespace Deque

variable {T : Type}

theorem nodup_concat {α : Type} {l : List α} {x : α} (hn : l.Nodup) (hx : x ∉ l) :
    (l ++ [x]).Nodup := by
  simp [List.nodup_append, hn, hx]

theorem isOverflowing_iff (d : Deque T) :
    d.isOverflowing = true ↔ (0 ≤ d.capacity ∧ d.capacity < d.len) := by
  simp only [isOverflowing, IsUnlimited, GetLen, GetCapacity, Bool.and_eq_true,
    Bool.not_eq_true', decide_eq_false_iff_not, decide_eq_true_eq]
  omega

theorem append_models [Inhabited T] {d : Deque T} {addrs : List Nat} {vs : List T}
    (hm : Models d addrs vs) (v : T) :
    ∃ d2, append d v = some d2 ∧ d2.capacity = d.capacity ∧
      (0 ≤ d.capacity ∧ d.capacity < d.len + 1 →
        Models d2 ((addrs ++ [d.heap.length]).drop 1) ((vs ++ [v]).drop 1)) ∧
      (¬ (0 ≤ d.capacity ∧ d.capacity < d.len + 1) →
        Models d2 (addrs ++ [d.heap.length]) (vs ++ [v])) := by
  obtain ⟨hhead, htail, hlen, hnd, hc⟩ := hm
  have hlt : ∀ x ∈ addrs, x < d.heap.length := hc.mem_lt
  have hAnot : d.heap.length ∉ addrs := fun hmem => Nat.lt_irrefl _ (hlt _ hmem)
  cases hc with
  | nil =>
    have h0eq : d.len = 0 := by simpa using hlen
    have e : append d v = evictLeft
        (⟨some d.heap.length, some d.heap.length, d.len + 1, d.capacity,
          d.heap ++ [(⟨v, none, none⟩ : Node T)]⟩ : Deque T) := by
      simp [append, GetLen, h0eq]
    have hm4 : Models (⟨some d.heap.length, some d.heap.length, d.len + 1, d.capacity,
        d.heap ++ [(⟨v, none, none⟩ : Node T)]⟩ : Deque T) [d.heap.length] [v] := by
      refine ⟨rfl, rfl, by simp [h0eq], List.nodup_singleton _, ?_⟩
      exact ChainIs.cons (List.getElem?_concat_length d.heap _) (ChainIs.nil _)
    obtain ⟨d5, he5, hcap5, hov1, hov0⟩ := evictLeft_models hm4
    refine ⟨d5, by rw [e]; exact he5, hcap5, ?_, ?_⟩
    · intro hcnd
      exact hov1 ((isOverflowing_iff _).mpr hcnd)
    · intro hcnd
      cases hb : (⟨some d.heap.length, some d.heap.length, d.len + 1, d.capacity,
          d.heap ++ [(⟨v, none, none⟩ : Node T)]⟩ : Deque T).isOverflowing with
      | false => exact hov0 hb
      | true => exact absurd ((isOverflowing_iff _).mp hb) hcnd
  | cons hget hrest =>
    rename_i a rest v0 vrest
    cases hrest with
    | nil =>
      -- addrs = [a], vs = [v0]
      have hga : d.heap[a]? = some ⟨v0, none, none⟩ := hget
      have haA : a < d.heap.length := hlt a (List.mem_cons_self _ _)
      have h1eq : d.len = 1 := by simpa using hlen
      have hsome : d.head = some a := hhead
      have hA0 : (d.heap ++ [(⟨v, none, none⟩ : Node T)])[d.heap.length]? =
          some ⟨v, none, none⟩ := List.getElem?_concat_length d.heap _
      have ha1 : (d.heap ++ [(⟨v, none, some a⟩ : Node T)])[a]? =
          some ⟨v0, none, none⟩ := by
        rw [List.getElem?_append, if_pos haA]
        exact hga
      have e : append d v = evictLeft
          (⟨some a, some d.heap.length, d.len + 1, d.capacity,
            (d.heap ++ [(⟨v, none, some a⟩ : Node T)]).set a
              ⟨v0, some d.heap.length, none⟩⟩ : Deque T) := by
        simp [append, GetLen, h1eq, writePrevP, writeNextP, hA0, ha1, hsome]
      have haneA : a ≠ d.heap.length := by omega
      have hm4 : Models (⟨some a, some d.heap.length, d.len + 1, d.capacity,
          (d.heap ++ [(⟨v, none, some a⟩ : Node T)]).set a
            ⟨v0, some d.heap.length, none⟩⟩ : Deque T)
          [a, d.heap.length] [v0, v] := by
        refine ⟨by simp, rfl, by simp [h1eq], by simp [List.nodup_cons, haneA], ?_⟩
        refine ChainIs.cons ?_ (ChainIs.cons ?_ (ChainIs.nil _))
        · rw [List.getElem?_set_eq_of_lt _ (by simp [haA]; omega)]
          try rfl
          try simp
        · rw [List.getElem?_set_ne haneA, List.getElem?_concat_length]
          try rfl
          try simp
      obtain ⟨d5, he5, hcap5, hov1, hov0⟩ := evictLeft_models hm4
      refine ⟨d5, by rw [e]; exact he5, hcap5, ?_, ?_⟩
      · intro hcnd
        exact hov1 ((isOverflowing_iff _).mpr hcnd)
      · intro hcnd
        cases hb : (⟨some a, some d.heap.length, d.len + 1, d.capacity,
            (d.heap ++ [(⟨v, none, some a⟩ : Node T)]).set a
              ⟨v0, some d.heap.length, none⟩⟩ : Deque T).isOverflowing with
        | false => exact hov0 hb
        | true => exact absurd ((isOverflowing_iff _).mp hb) hcnd
    | cons hgetb hrest2 =>
      rename_i b rest2 v1 vrest1
      -- addrs = a :: b :: rest2
      obtain ⟨t, ht⟩ : ∃ t, (a :: b :: rest2).getLast? = some t :=
        ⟨_, List.getLast?_eq_getLast_of_ne_nil (List.cons_ne_nil _ _)⟩
      have htt : d.tail = some t := htail.trans ht
      have htmem : t ∈ a :: b :: rest2 := mem_of_getLast?_some ht
      have htA : t < d.heap.length := hlt t htmem
      have htneA : t ≠ d.heap.length := by omega
      have hAnet : d.heap.length ≠ t := by omega
      obtain ⟨w, q, hgt⟩ :=
        chainIs_last _ _ _ t (ChainIs.cons hget (ChainIs.cons hgetb hrest2)) ht
      have hgt1 : (d.heap ++ [(⟨v, none, some t⟩ : Node T)])[t]? = some ⟨w, none, q⟩ := by
        rw [List.getElem?_append, if_pos htA]
        exact hgt
      have hA0 : (d.heap ++ [(⟨v, none, none⟩ : Node T)])[d.heap.length]? =
          some ⟨v, none, none⟩ := List.getElem?_concat_length d.heap _
      have h00 : ¬ (d.len = 0) := by
        simp only [hlen, List.length_cons]
        push_cast
        omega
      have h11 : ¬ (d.len = 1) := by
        simp only [hlen, List.length_cons]
        push_cast
        omega
      have e : append d v = evictLeft
          (⟨d.head, some d.heap.length, d.len + 1, d.capacity,
            (d.heap ++ [(⟨v, none, some t⟩ : Node T)]).set t
              ⟨w, some d.heap.length, q⟩⟩ : Deque T) := by
        simp [append, GetLen, h00, h11, writePrevP, writeNextP, hA0, hgt1, htt]
      have hm4 : Models (⟨d.head, some d.heap.length, d.len + 1, d.capacity,
          (d.heap ++ [(⟨v, none, some t⟩ : Node T)]).set t
            ⟨w, some d.heap.length, q⟩⟩ : Deque T)
          ((a :: b :: rest2) ++ [d.heap.length]) ((v0 :: v1 :: vrest1) ++ [v]) := by
        refine ⟨hhead, (List.getLast?_concat _).symm, ?_, nodup_concat hnd hAnot, ?_⟩
        · simp only [List.length_append, List.length_cons, List.length_nil, hlen]
          push_cast
          omega
        · refine chainIs_snoc _ _ _ t d.heap.length v
            (ChainIs.cons hget (ChainIs.cons hgetb hrest2)) hnd ht hAnot ?_ ?_ ?_
          · intro x hx hxt
            have htnex : t ≠ x := fun he => hxt he.symm
            rw [List.getElem?_set_ne htnex, List.getElem?_append, if_pos (hlt x hx)]
          · intro n hn
            rw [hgt] at hn
            injection hn with hn
            subst hn
            have htL : t < ((d.heap ++ [(⟨v, none, some t⟩ : Node T)])).length := by
              simp
              omega
            rw [List.getElem?_set_eq_of_lt _ htL]
          · rw [List.getElem?_set_ne htneA, List.getElem?_concat_length]
            try rfl
            try simp
      obtain ⟨d5, he5, hcap5, hov1, hov0⟩ := evictLeft_models hm4
      refine ⟨d5, by rw [e]; exact he5, hcap5, ?_, ?_⟩
      · intro hcnd
        exact hov1 ((isOverflowing_iff _).mpr hcnd)
      · intro hcnd
        cases hb : (⟨d.head, some d.heap.length, d.len + 1, d.capacity,
            (d.heap ++ [(⟨v, none, some t⟩ : Node T)]).set t
              ⟨w, some d.heap.length, q⟩⟩ : Deque T).isOverflowing with
        | false => exact hov0 hb
        | true => exact absurd ((isOverflowing_iff _).mp hb) hcnd

end Deque

namespace Deque

variable {T : Type}

theorem models_len_nonneg {d : Deque T} {addrs : List Nat} {vs : List T}
    (hm : Models d addrs vs) : 0 ≤ d.len := by
  rw [hm.2.2.1]
  positivity

theorem appendAll_models [Inhabited T] :
    ∀ (ws : List T) (d : Deque T) (addrs : List Nat) (vs : List T),
      Models d addrs vs → (d.capacity < 0 ∨ d.len ≤ d.capacity) →
      ∃ d2 addrs2 vs2, appendAll d ws = some d2 ∧ Models d2 addrs2 vs2 ∧
        d2.capacity = d.capacity ∧
        d2.len = (if 0 ≤ d.capacity then min (d.len + ws.length) d.capacity
                  else d.len + ws.length) ∧
        ((d.capacity < 0 ∨ d.len + ws.length ≤ d.capacity) → vs2 = vs ++ ws) := by
  intro ws
  induction ws with
  | nil =>
    intro d addrs vs hm hcap
    refine ⟨d, addrs, vs, rfl, hm, rfl, ?_, fun _ => by simp⟩
    simp only [List.length_nil]
    split_ifs with h1 <;> push_cast <;> omega
  | cons wv wrest ih =>
    intro d addrs vs hm hcap
    have hlend : d.len = (addrs.length : Int) := hm.2.2.1
    obtain ⟨d2, he, hcap2, hov, hnov⟩ := append_models hm wv
    by_cases hcnd : 0 ≤ d.capacity ∧ d.capacity < d.len + 1
    · have hm2 := hov hcnd
      have hlen2 : d2.len = d.len := by
        rw [hm2.2.2.1, hlend]
        simp [List.length_drop]
      have hcap2c : d2.capacity < 0 ∨ d2.len ≤ d2.capacity := by
        rw [hcap2, hlen2]
        rcases hcap with h | h
        · exact Or.inl h
        · exact Or.inr h
      obtain ⟨d3, addrs3, vs3, he3, hm3, hcap3, hlen3, hvals3⟩ := ih d2 _ _ hm2 hcap2c
      refine ⟨d3, addrs3, vs3, by simp [appendAll, he, he3], hm3,
        hcap3.trans hcap2, ?_, ?_⟩
      · rw [hlen3, hcap2, hlen2]
        simp only [List.length_cons]
        push_cast
        split_ifs <;> omega
      · intro hgrow
        exfalso
        have h0 : (0 : Int) ≤ wrest.length := by positivity
        rcases hgrow with h | h
        · omega
        · simp only [List.length_cons] at h
          push_cast at h
          omega
    · have hm2 := hnov hcnd
      have hlen2 : d2.len = d.len + 1 := by
        rw [hm2.2.2.1, hlend]
        simp only [List.length_append, List.length_cons, List.length_nil]
        push_cast
        omega
      have hnc : d.capacity < 0 ∨ d.len + 1 ≤ d.capacity := by
        rcases hcap with h | h
        · exact Or.inl h
        · by_cases h2 : d.capacity < 0
          · exact Or.inl h2
          · exact Or.inr (by omega)
      have hcap2c : d2.capacity < 0 ∨ d2.len ≤ d2.capacity := by
        rw [hcap2, hlen2]
        exact hnc
      obtain ⟨d3, addrs3, vs3, he3, hm3, hcap3, hlen3, hvals3⟩ := ih d2 _ _ hm2 hcap2c
      refine ⟨d3, addrs3, vs3, by simp [appendAll, he, he3], hm3,
        hcap3.trans hcap2, ?_, ?_⟩
      · rw [hlen3, hcap2, hlen2]
        simp only [List.length_cons]
        push_cast
        split_ifs <;> omega
      · intro hgrow
        have hg2 : d2.capacity < 0 ∨ d2.len + (wrest.length : Int) ≤ d2.capacity := by
          rw [hcap2, hlen2]
          rcases hgrow with h | h
          · exact Or.inl h
          · refine Or.inr ?_
            simp only [List.length_cons] at h
            push_cast at h
            omega
        rw [hvals3 hg2]
        simp

end Deque

namespace Deque

variable {T : Type}

theorem step_cap0 [Inhabited T] {d : Deque T}
    (h : d.head = none ∧ d.tail = none ∧ d.len = 0 ∧ d.capacity = 0) (o : DOp T) :
    ∃ d2, applyOp d o = some d2 ∧
      d2.head = none ∧ d2.tail = none ∧ d2.len = 0 ∧ d2.capacity = 0 := by
  obtain ⟨h1, h2, h3, h4⟩ := h
  cases o with
  | app v =>
    refine ⟨⟨none, none, 0, 0, d.heap ++ [⟨v, none, none⟩]⟩, ?_, rfl, rfl, rfl, rfl⟩
    simp [applyOp, append, GetLen, h3, h4, evictLeft, isOverflowing, IsUnlimited,
      GetCapacity, tryPopLeft]
  | appL v =>
    refine ⟨⟨none, none, 0, 0, d.heap ++ [⟨v, none, none⟩]⟩, ?_, rfl, rfl, rfl, rfl⟩
    simp [applyOp, appendLeft, GetLen, h3, h4, evictRight, isOverflowing, IsUnlimited,
      GetCapacity, tryPop]
  | pop =>
    exact ⟨d, by simp [applyOp, tryPop, GetLen, h3], h1, h2, h3, h4⟩
  | popL =>
    exact ⟨d, by simp [applyOp, tryPopLeft, GetLen, h3], h1, h2, h3, h4⟩
  | clear =>
    exact ⟨d.Clear, rfl, rfl, rfl, rfl, h4⟩
  | rot n =>
    exact ⟨d, by simp [applyOp, Rotate, GetLen, h3], h1, h2, h3, h4⟩

theorem run_cap0 [Inhabited T] :
    ∀ (ops : List (DOp T)) (d : Deque T),
      d.head = none ∧ d.tail = none ∧ d.len = 0 ∧ d.capacity = 0 →
      ∃ d2, run d ops = some d2 ∧
        d2.head = none ∧ d2.tail = none ∧ d2.len = 0 ∧ d2.capacity = 0 := by
  intro ops
  induction ops with
  | nil => exact fun d h => ⟨d, rfl, h⟩
  | cons o rest ih =>
    intro d h
    obtain ⟨d2, he, h2⟩ := step_cap0 h o
    obtain ⟨d3, he3, h3⟩ := ih d2 h2
    exact ⟨d3, by simp [run, he, he3], h3⟩

end Deque

namespace Deque

variable {T : Type}

/-- C1: refuted on the code (code bug).  On the one-element deque holding 42
(reached by `Append` from `NewDeque 8`), `TryPop` and `TryPopLeft` do remove
the node and decrement the length, but each returns the zero value 0 and not
the former end element 42: the Go code declares `var value T` and never
assigns the popped node's value to it before returning. -/
theorem c1_tryPop_returns_zero_value_not_former_tail :
    Append (NewDeque 8 : Deque Int) 42 =
      some ⟨some 0, some 0, 1, 8, [⟨42, none, none⟩]⟩ ∧
    Values (⟨some 0, some 0, 1, 8, [⟨42, none, none⟩]⟩ : Deque Int) = [42] ∧
    TryPop (⟨some 0, some 0, 1, 8, [⟨42, none, none⟩]⟩ : Deque Int) =
      some (0, false, ⟨none, none, 0, 8, [⟨42, none, none⟩]⟩) ∧
    TryPopLeft (⟨some 0, some 0, 1, 8, [⟨42, none, none⟩]⟩ : Deque Int) =
      some (0, false, ⟨none, none, 0, 8, [⟨42, none, none⟩]⟩) ∧
    (0 : Int) ≠ 42 := by
  decide

/-- C2: refuted on the code (code bug).  On the deque [10, 20] of length
L = 2, a single call `Rotate 2` (that is, `Rotate L`, which the claim says
leaves the order unchanged) dereferences a nil pointer and panics: the second
right rotation reads `tail.prev` of the original head, which `rotateRight`
never updated. -/
theorem c2_rotate_by_full_length_panics :
    appendAll (NewDeque (-1) : Deque Int) [10, 20] =
      some ⟨some 0, some 1, 2, -1, [⟨10, some 1, none⟩, ⟨20, none, some 0⟩]⟩ ∧
    GetLen (⟨some 0, some 1, 2, -1,
      [⟨10, some 1, none⟩, ⟨20, none, some 0⟩]⟩ : Deque Int) = 2 ∧
    Rotate (⟨some 0, some 1, 2, -1,
      [⟨10, some 1, none⟩, ⟨20, none, some 0⟩]⟩ : Deque Int) 2 = none := by
  decide

/-- C3: refuted on the code (code bug).  The structural invariant checker
`structOk` (head's `prev` absent, tail's `next` absent, the `next` chain from
the head reaching absence in exactly `len` steps and the `prev` chain from the
tail traversing the same nodes in reverse) holds on the reachable deque
[10, 20] but fails after the public operation `Rotate 1`: `rotateRight` never
sets the old head's `prev` to the new head, so the `prev` chain from the tail
stops short. -/
theorem c3_invariant_violated_after_rotate :
    appendAll (NewDeque (-1) : Deque Int) [10, 20] =
      some ⟨some 0, some 1, 2, -1, [⟨10, some 1, none⟩, ⟨20, none, some 0⟩]⟩ ∧
    structOk (⟨some 0, some 1, 2, -1,
      [⟨10, some 1, none⟩, ⟨20, none, some 0⟩]⟩ : Deque Int) = true ∧
    Rotate (⟨some 0, some 1, 2, -1,
      [⟨10, some 1, none⟩, ⟨20, none, some 0⟩]⟩ : Deque Int) 1 =
      some ⟨some 1, some 0, 2, -1, [⟨10, none, none⟩, ⟨20, some 0, none⟩]⟩ ∧
    structOk (⟨some 1, some 0, 2, -1,
      [⟨10, none, none⟩, ⟨20, some 0, none⟩]⟩ : Deque Int) = false := by
  decide

/-- C4: refuted on the code (code bug).  The deque [10, 20, 30] is rotated
left once by the public `Rotate (-1)`, reaching the order [20, 30, 10]; the
in-bounds lookup `TryPeek 1` (0 ≤ 1 < 3) then walks backward from the tail,
reads the nil `prev` pointer that `rotateLeft` failed to maintain, and panics
(`none`) instead of returning the element 30. -/
theorem c4_tryPeek_panics_on_rotated_deque :
    appendAll (NewDeque (-1) : Deque Int) [10, 20, 30] =
      some ⟨some 0, some 2, 3, -1,
        [⟨10, some 1, none⟩, ⟨20, some 2, some 0⟩, ⟨30, none, some 1⟩]⟩ ∧
    Rotate (⟨some 0, some 2, 3, -1,
      [⟨10, some 1, none⟩, ⟨20, some 2, some 0⟩, ⟨30, none, some 1⟩]⟩ : Deque Int) (-1) =
      some ⟨some 1, some 0, 3, -1,
        [⟨10, none, none⟩, ⟨20, some 2, some 0⟩, ⟨30, some 0, some 1⟩]⟩ ∧
    Values (⟨some 1, some 0, 3, -1,
      [⟨10, none, none⟩, ⟨20, some 2, some 0⟩, ⟨30, some 0, some 1⟩]⟩ : Deque Int) =
      [20, 30, 10] ∧
    TryPeek (⟨some 1, some 0, 3, -1,
      [⟨10, none, none⟩, ⟨20, some 2, some 0⟩, ⟨30, some 0, some 1⟩]⟩ : Deque Int) 1 =
      none := by
  decide

/-- C6: confirmed.  With `length = 0`, `TryPop` and `TryPopLeft` each return a
PopError (second component `true`) together with the zero value `default` and
the completely unchanged state; with `length ≠ 0` no success path of either
operation reports an error. -/
theorem c6_pop_error_iff_empty [Inhabited T] (d : Deque T) :
    (d.GetLen = 0 →
      TryPop d = some (default, true, d) ∧ TryPopLeft d = some (default, true, d)) ∧
    (d.GetLen ≠ 0 →
      (∀ v e d2, TryPop d = some (v, e, d2) → e = false) ∧
      (∀ v e d2, TryPopLeft d = some (v, e, d2) → e = false)) := by
  constructor
  · intro h
    constructor
    · simp [TryPop, tryPop, h]
    · simp [TryPopLeft, tryPopLeft, h]
  · intro h
    constructor
    · intro v e d2 heq
      simp only [TryPop, tryPop, if_neg h] at heq
      repeat' split at heq
      all_goals simp_all
    · intro v e d2 heq
      simp only [TryPopLeft, tryPopLeft, if_neg h] at heq
      repeat' split at heq
      all_goals simp_all

/-- Witness for C6 at concrete inputs: the empty deque of capacity 3 errors on
both pops and is returned unchanged, and a one-element deque reports no error. -/
theorem c6_pop_error_iff_empty_witness :
    (TryPop (NewDeque 3 : Deque Int) = some (0, true, NewDeque 3) ∧
      TryPopLeft (NewDeque 3 : Deque Int) = some (0, true, NewDeque 3)) ∧
    false = false :=
  ⟨(c6_pop_error_iff_empty (NewDeque 3)).1 rfl,
    ((c6_pop_error_iff_empty
        (⟨some 0, some 0, 1, 3, [⟨(7 : Int), none, none⟩]⟩ : Deque Int)).2
      (by decide)).1 0 false ⟨none, none, 0, 3, [⟨7, none, none⟩]⟩ (by decide)⟩

/-- C7: confirmed.  `TryPeek` returns a PeekError exactly on the out-of-bounds
indices `index < 0` or `index ≥ length`; the error carries the offending index
and is accompanied by the zero value `default`, and no in-bounds success path
carries an error.  `TryPeek` never mutates the state (it is a pure function of
the deque in this embedding, as the Go code only reads under the lock). -/
theorem c7_tryPeek_error_iff_out_of_bounds [Inhabited T] (d : Deque T) (i : Int) :
    (i < 0 ∨ d.GetLen ≤ i → TryPeek d i = some (default, some i)) ∧
    (0 ≤ i → i < d.GetLen → ∀ v e, TryPeek d i = some (v, e) → e = none) := by
  constructor
  · intro h
    simp [TryPeek, h]
  · intro h0 h1 v e heq
    have hno : ¬ (i < 0 ∨ d.GetLen ≤ i) := by
      push_neg
      exact ⟨h0, h1⟩
    simp only [TryPeek, if_neg hno] at heq
    repeat' split at heq
    all_goals simp_all

/-- Witness for C7 at concrete inputs: peeking index 5 of a one-element deque
errors with that index and the zero value; peeking index 0 succeeds without an
error. -/
theorem c7_tryPeek_error_iff_out_of_bounds_witness :
    TryPeek (⟨some 0, some 0, 1, 4, [⟨9, none, none⟩]⟩ : Deque Int) 5 =
      some (0, some 5) ∧
    (none : Option Int) = none :=
  ⟨(c7_tryPeek_error_iff_out_of_bounds
      (⟨some 0, some 0, 1, 4, [⟨(9 : Int), none, none⟩]⟩ : Deque Int) 5).1
      (Or.inr (by decide)),
    (c7_tryPeek_error_iff_out_of_bounds
      (⟨some 0, some 0, 1, 4, [⟨(9 : Int), none, none⟩]⟩ : Deque Int) 0).2
      (by decide) (by decide) 9 none (by decide)⟩

/-- C8: confirmed.  From `NewDeque 0`, any sequence of the two insertion
operations leaves the deque with length 0 and absent head and tail: each
insertion overflows immediately and the just-inserted sole element is evicted
by the in-line pop. -/
theorem c8_capacity_zero_insertions_keep_empty [Inhabited T]
    (ops : List (DOp T)) (_hins : ∀ o ∈ ops, isIns o = true) :
    ∃ d, run (NewDeque 0) ops = some d ∧
      d.GetLen = 0 ∧ d.head = none ∧ d.tail = none := by
  obtain ⟨d2, he, h2⟩ := run_cap0 ops (NewDeque 0) ⟨rfl, rfl, rfl, rfl⟩
  exact ⟨d2, he, h2.2.2.1, h2.1, h2.2.1⟩

/-- Witness for C8: one `Append` followed by one `AppendLeft` on a capacity-0
deque leaves it empty. -/
theorem c8_capacity_zero_insertions_keep_empty_witness :
    ∃ d : Deque Int, run (NewDeque 0) [DOp.app 5, DOp.appL 6] = some d ∧
      d.GetLen = 0 ∧ d.head = none ∧ d.tail = none :=
  c8_capacity_zero_insertions_keep_empty [DOp.app 5, DOp.appL 6] (by decide)

/-- C10: confirmed.  Every state reachable from `NewDeque 0` by public
operations keeps length 0 and capacity 0, so `IsFull` (which compares
`length ≥ capacity` for non-negative capacities) and `IsEmpty` are
simultaneously true in every reachable state. -/
theorem c10_capacity_zero_isFull_and_isEmpty [Inhabited T]
    (ops : List (DOp T)) (d : Deque T) (h : run (NewDeque 0) ops = some d) :
    IsFull d = true ∧ IsEmpty d = true := by
  obtain ⟨d2, he, h2⟩ := run_cap0 ops (NewDeque 0) ⟨rfl, rfl, rfl, rfl⟩
  rw [he] at h
  injection h with h
  subst h
  constructor
  · simp [IsFull, IsUnlimited, GetLen, GetCapacity, h2.2.2.1, h2.2.2.2]
  · simp [IsEmpty, GetLen, h2.2.2.1]

/-- Witness for C10: the state reached by one `Append` on a capacity-0 deque
is both full and empty. -/
theorem c10_capacity_zero_isFull_and_isEmpty_witness :
    IsFull (⟨none, none, 0, 0, [⟨(5 : Int), none, none⟩]⟩ : Deque Int) = true ∧
    IsEmpty (⟨none, none, 0, 0, [⟨(5 : Int), none, none⟩]⟩ : Deque Int) = true :=
  c10_capacity_zero_isFull_and_isEmpty [DOp.app 5] _ (by decide)

end Deque

namespace Deque

variable {T : Type}

/-- C5: confirmed.  First part: for every capacity C ≥ 0 and every list of N
values appended in order to `NewDeque C`, `GetLen` afterwards is `min N C`.
Second part: on an unbounded deque (negative capacity) it is N.  Third part:
whenever a bounded `append` overflows (capacity < length + 1), the one element
at the left end is evicted, the resulting length equals the capacity, and the
resulting value sequence is the old one with the new value appended on the
right and the oldest value dropped on the left. -/
theorem c5_append_length_and_eviction [Inhabited T] :
    (∀ (C : Int) (vs : List T), 0 ≤ C →
      ∃ d, appendAll (NewDeque C) vs = some d ∧ d.GetLen = min (vs.length : Int) C) ∧
    (∀ (C : Int) (vs : List T), C < 0 →
      ∃ d, appendAll (NewDeque C) vs = some d ∧ d.GetLen = (vs.length : Int)) ∧
    (∀ (d : Deque T) (addrs : List Nat) (vsd : List T) (v : T),
      Models d addrs vsd → 0 ≤ d.capacity → d.len ≤ d.capacity →
      d.capacity < d.len + 1 →
      ∃ d2, append d v = some d2 ∧ d2.GetLen = d.GetCapacity ∧
        Values d2 = (vsd ++ [v]).drop 1) := by
  have hm0 : ∀ C : Int, Models (NewDeque C : Deque T) [] [] :=
    fun C => ⟨rfl, rfl, rfl, List.nodup_nil, ChainIs.nil _⟩
  refine ⟨?_, ?_, ?_⟩
  · intro C vs hC
    obtain ⟨d2, a2, v2, he, hm2, hcap2, hlen2, _⟩ :=
      appendAll_models vs (NewDeque C) [] [] (hm0 C) (Or.inr hC)
    refine ⟨d2, he, ?_⟩
    rw [GetLen, hlen2]
    simp only [NewDeque]
    rw [if_pos hC]
    omega
  · intro C vs hC
    obtain ⟨d2, a2, v2, he, hm2, hcap2, hlen2, _⟩ :=
      appendAll_models vs (NewDeque C) [] [] (hm0 C) (Or.inl hC)
    refine ⟨d2, he, ?_⟩
    rw [GetLen, hlen2]
    simp only [NewDeque]
    rw [if_neg (by omega)]
    omega
  · intro d addrs vsd v hm hge hle hlt2
    obtain ⟨d2, he, hcap2, hov, _⟩ := append_models hm v
    have hm2 := hov ⟨hge, hlt2⟩
    refine ⟨d2, he, ?_, Values_of_models hm2⟩
    have hlend : d.len = (addrs.length : Int) := hm.2.2.1
    have hlen2 := hm2.2.2.1
    rw [GetLen, GetCapacity, hlen2]
    simp only [List.length_drop, List.length_append, List.length_cons, List.length_nil]
    omega

/-- Witness for C5 at concrete inputs: three appends into capacity 2 give
length 2; three appends into an unbounded deque give length 3; appending 7 to
the full capacity-2 deque [5, 6] evicts the left element, giving length 2 and
contents [6, 7]. -/
theorem c5_append_length_and_eviction_witness :
    (∃ d : Deque Int, appendAll (NewDeque 2) [5, 6, 7] = some d ∧
      d.GetLen = min (3 : Int) 2) ∧
    (∃ d : Deque Int, appendAll (NewDeque (-1)) [5, 6, 7] = some d ∧
      d.GetLen = (3 : Int)) ∧
    (∃ d2 : Deque Int,
      append (⟨some 0, some 1, 2, 2, [⟨5, some 1, none⟩, ⟨6, none, some 0⟩]⟩ : Deque Int)
        7 = some d2 ∧ d2.GetLen = (2 : Int) ∧ Values d2 = [6, 7]) :=
  ⟨c5_append_length_and_eviction.1 2 [5, 6, 7] (by decide),
    c5_append_length_and_eviction.2.1 (-1) [5, 6, 7] (by decide),
    c5_append_length_and_eviction.2.2
      (⟨some 0, some 1, 2, 2, [⟨5, some 1, none⟩, ⟨6, none, some 0⟩]⟩ : Deque Int)
      [0, 1] [5, 6] 7
      ⟨rfl, rfl, rfl, by decide,
        ChainIs.cons (by decide) (ChainIs.cons (by decide) (ChainIs.nil _))⟩
      (by decide) (by decide) (by decide)⟩

/-- C9: confirmed for the observable behavior.  For every deque in a
consistent state (`Models`, with the capacity invariant that holds in every
reachable state), `Copy` succeeds and returns a deque with the same capacity,
the same length, and the same head-to-tail value sequence; the copy's node
chain is rebuilt from scratch by fresh allocations, so in this embedding the
two deques own disjoint heaps and mutating one cannot change the other. -/
theorem c9_copy_preserves_capacity_length_values [Inhabited T]
    (d : Deque T) (addrs : List Nat) (vs : List T)
    (hm : Models d addrs vs) (hcap : d.capacity < 0 ∨ d.len ≤ d.capacity) :
    ∃ d2, Copy d = some d2 ∧ d2.GetCapacity = d.GetCapacity ∧
      d2.GetLen = d.GetLen ∧ Values d2 = Values d := by
  have hv : d.Values = vs := Values_of_models hm
  have hvlen : vs.length = addrs.length := ChainIs.length_eq hm.2.2.2.2
  have hlend : d.len = (addrs.length : Int) := hm.2.2.1
  have h0le : (0 : Int) ≤ d.len := models_len_nonneg hm
  have hm0 : Models (NewDeque d.capacity : Deque T) [] [] :=
    ⟨rfl, rfl, rfl, List.nodup_nil, ChainIs.nil _⟩
  have hcap0 : (NewDeque d.capacity : Deque T).capacity < 0 ∨
      (NewDeque d.capacity : Deque T).len ≤ (NewDeque d.capacity : Deque T).capacity := by
    rcases hcap with h | h
    · exact Or.inl h
    · refine Or.inr ?_
      show (0 : Int) ≤ d.capacity
      omega
  obtain ⟨d2, a2, v2, he, hm2, hcap2, hlen2, hvals2⟩ :=
    appendAll_models vs (NewDeque d.capacity) [] [] hm0 hcap0
  have hvv : v2 = [] ++ vs := by
    refine hvals2 ?_
    rcases hcap with h | h
    · exact Or.inl h
    · refine Or.inr ?_
      show (0 : Int) + (vs.length : Int) ≤ d.capacity
      omega
  refine ⟨d2, ?_, ?_, ?_, ?_⟩
  · rw [Copy, hv]
    exact he
  · exact hcap2
  · show d2.len = d.len
    rw [hlen2]
    simp only [NewDeque]
    split_ifs with hif <;> omega
  · rw [Values_of_models hm2, hvv, hv]
    simp

/-- Witness for C9: copying the two-element capacity-5 deque [4, 9] yields a
deque with capacity 5, length 2 and values [4, 9]. -/
theorem c9_copy_preserves_capacity_length_values_witness :
    ∃ d2 : Deque Int,
      Copy (⟨some 0, some 1, 2, 5, [⟨4, some 1, none⟩, ⟨9, none, some 0⟩]⟩ : Deque Int) =
        some d2 ∧
      d2.GetCapacity =
        GetCapacity (⟨some 0, some 1, 2, 5,
          [⟨4, some 1, none⟩, ⟨9, none, some 0⟩]⟩ : Deque Int) ∧
      d2.GetLen =
        GetLen (⟨some 0, some 1, 2, 5,
          [⟨4, some 1, none⟩, ⟨9, none, some 0⟩]⟩ : Deque Int) ∧
      Values d2 =
        Values (⟨some 0, some 1, 2, 5,
          [⟨4, some 1, none⟩, ⟨9, none, some 0⟩]⟩ : Deque Int) :=
  c9_copy_preserves_capacity_length_values
    (⟨some 0, some 1, 2, 5, [⟨4, some 1, none⟩, ⟨9, none, some 0⟩]⟩ : Deque Int)
    [0, 1] [4, 9]
    ⟨rfl, rfl, rfl, by decide,
      ChainIs.cons (by decide) (ChainIs.cons (by decide) (ChainIs.nil _))⟩
    (Or.inr (by decide))

end Deque
